import Mathlib

/-!
Verification of the ibmisc index-space mapping core and the spsparse
Eigen bridging helpers.

The `Indexing` engine itself is not among the given source files (only its
test suite `src/tests/ibmisc/test_indexing.cpp` is), so the engine is
modelled from the specification; wherever the specification's prose
conflicts with the concrete values asserted by the in-repository tests,
the tests win, and the divergence is recorded next to the theorem that
settles the corresponding claim.  The spsparse helpers (`to_eigen`,
`diag_matrix`, `scale_matrix`, `weight_matrix`) are embedded from
`src/unnamed/part_000`.
-/

namespace Ibmisc

/-- Modelled from the spec: the error taxonomy (§7) of the Indexing engine,
whose implementation is missing from the given sources.  Construction
failures report `InvalidArgument`; conversion of out-of-range inputs would
report `OutOfRange`. -/
inductive IbError where
  | InvalidArgument
  | OutOfRange
  deriving Repr, DecidableEq

/-- Modelled from the spec: the engine state (§3) — per-dimension inclusive
lower bounds `base`, per-dimension extents `extent`, and the
dimension-traversal permutation `order`.  Coordinates and flat indices are
modelled as `Int` (the C++ template instantiates signed integer types). -/
structure Indexing where
  base : List Int
  extent : List Int
  order : List Nat
  deriving Repr, DecidableEq

namespace Indexing

/-- Modelled from the spec: the rank N, inferred from the sequence lengths. -/
def rank (ind : Indexing) : Nat := ind.extent.length

/-- Extent of dimension `d` (0 when out of range, which valid use never hits). -/
def extAt (ind : Indexing) (d : Nat) : Int := ind.extent.getD d 0

/-- Base of dimension `d` (0 when out of range, which valid use never hits). -/
def baseAt (ind : Indexing) (d : Nat) : Int := ind.base.getD d 0

/-- Modelled from the spec (§4.1 stride table), with the direction of the
product fixed by the in-repository tests: the tests
(`src/tests/ibmisc/test_indexing.cpp`) assert `tuple_to_index {3,2} = 13`
for extent `{5,4}`, order `{1,0}` and `17` for extent `{4,5}`, order
`{0,1}`, which forces `order[0]` to be the slowest-varying dimension and
`order[rank-1]` the fastest.  The stride of the dimension at traversal
position `k` is therefore the product of the extents of the dimensions at
traversal positions `k+1 .. rank-1`. -/
def strideRank (ind : Indexing) (k : Nat) : Int :=
  ((ind.order.drop (k+1)).map ind.extAt).prod

/-- Stride of dimension `d`: the stride of its traversal position. -/
def stride (ind : Indexing) (d : Nat) : Int :=
  ind.strideRank (List.indexOf d ind.order)

/-- Modelled from the spec: `size()` returns the product of all extents and
returns 0 if the rank is 0 (§4.1). -/
def size (ind : Indexing) : Int :=
  if ind.rank = 0 then 0 else ind.extent.prod

/-- Modelled from the spec: flat index = `Σ_i stride[i] * (tuple[i] - base[i])`
(§4.1, `tuple_to_index`). -/
def tuple_to_index (ind : Indexing) (t : List Int) : Int :=
  ((List.range ind.rank).map (fun i => ind.stride i * (t.getD i 0 - ind.baseAt i))).sum

/-- Modelled from the spec: the digit-extraction loop of `index_to_tuple`
(§4.1), walking traversal positions from slowest-varying to
fastest-varying, dividing the remaining index by the stride of the
position to obtain the offset along that dimension and carrying the
remainder forward.  `m` counts the remaining positions, `k` is the current
traversal position. -/
def ittDigits (ind : Indexing) : Nat → Nat → Int → List Int
  | 0, _, _ => []
  | m+1, k, rem =>
    rem / ind.strideRank k :: ittDigits ind m (k+1) (rem % ind.strideRank k)

/-- Modelled from the spec: `index_to_tuple` (§4.1) — the offset extracted at
traversal position `k` is placed at dimension `order[k]`, with
`base[order[k]]` added back. -/
def index_to_tuple (ind : Indexing) (ix : Int) : List Int :=
  (List.range ind.rank).map (fun i =>
    ind.baseAt i + (ittDigits ind ind.rank 0 ix).getD (List.indexOf i ind.order) 0)

/-- Modelled from the spec: the construction preconditions (§4.1) — the three
sequences have one common length, `order` is a permutation of `[0,N)`, and
no extent is negative. -/
def validParams (base extent : List Int) (order : List Nat) : Prop :=
  base.length = extent.length ∧ order.length = extent.length ∧
  List.Perm order (List.range extent.length) ∧ ∀ e ∈ extent, 0 ≤ e

instance validParamsDecidable (base extent : List Int) (order : List Nat) :
    Decidable (validParams base extent order) := by
  unfold validParams; exact inferInstance

/-- Modelled from the spec: the constructor `Indexing(base, extent, order)`
(§4.1) — it fails fast with `InvalidArgument` on malformed parameters and
never produces a usable engine in that case (modelled by `Except.error`). -/
def make (base extent : List Int) (order : List Nat) : Except IbError Indexing :=
  if validParams base extent order then Except.ok ⟨base, extent, order⟩
  else Except.error IbError.InvalidArgument

/-- Modelled from the spec: a validly constructed engine — the construction
preconditions hold and, per the data model (§3), the rank N is at least 1. -/
def valid (ind : Indexing) : Prop :=
  validParams ind.base ind.extent ind.order ∧ 0 < ind.rank

instance validDecidable (ind : Indexing) : Decidable ind.valid := by
  unfold valid; exact inferInstance

/-- Modelled from the spec: a legal coordinate tuple — length N with
`base[i] ≤ t[i] < base[i] + extent[i]` for every dimension (§3). -/
def InBounds (ind : Indexing) (t : List Int) : Prop :=
  t.length = ind.rank ∧
  ∀ i, i < ind.rank → ind.baseAt i ≤ t.getD i 0 ∧ t.getD i 0 < ind.baseAt i + ind.extAt i

instance inBoundsDecidable (ind : Indexing) (t : List Int) : Decidable (ind.InBounds t) := by
  unfold InBounds; exact inferInstance

/-- Extents listed in traversal order, slowest-varying first. -/
def pext (ind : Indexing) : List Int := ind.order.map ind.extAt

/-- Offsets of a tuple from the base, listed in traversal order. -/
def pdig (ind : Indexing) (t : List Int) : List Int :=
  ind.order.map (fun i => t.getD i 0 - ind.baseAt i)

end Indexing

/-- Value of a big-endian mixed-radix digit string: the digit list and the
radix list are aligned, most significant position first, and each digit is
weighted by the product of the radices after it. -/
def bmVal : List Int → List Int → Int
  | d :: ds, _ :: es => d * es.prod + bmVal ds es
  | _, _ => 0

/-- Big-endian mixed-radix digit extraction: divide by the product of the
remaining radices, carry the remainder forward. -/
def bmDigits : List Int → Int → List Int
  | _ :: es, v => v / es.prod :: bmDigits es (v % es.prod)
  | [], _ => []

/-- Digit string componentwise within `[0, radix)`. -/
def DigitsOk : List Int → List Int → Prop :=
  List.Forall₂ (fun d e => 0 ≤ d ∧ d < e)

theorem bmVal_bounds {ds es : List Int} (h : DigitsOk ds es) :
    0 ≤ bmVal ds es ∧ bmVal ds es < es.prod := by
  induction h with
  | nil => simp [bmVal]
  | @cons d e ds es hde htail ih =>
    obtain ⟨hd0, hdlt⟩ := hde
    obtain ⟨ih0, ih1⟩ := ih
    have hP : 0 < es.prod := lt_of_le_of_lt ih0 ih1
    simp only [bmVal, List.prod_cons]
    constructor
    · have := mul_nonneg hd0 hP.le
      omega
    · nlinarith [mul_le_mul_of_nonneg_right (show d ≤ e - 1 by omega) hP.le]

theorem bmDigits_bmVal {ds es : List Int} (h : DigitsOk ds es) :
    bmDigits es (bmVal ds es) = ds := by
  induction h with
  | nil => rfl
  | @cons d e ds es hde htail ih =>
    obtain ⟨hd0, hdlt⟩ := hde
    obtain ⟨hV0, hVlt⟩ := bmVal_bounds htail
    have hP : 0 < es.prod := lt_of_le_of_lt hV0 hVlt
    simp only [bmVal, bmDigits]
    have hdiv : (d * es.prod + bmVal ds es) / es.prod = d := by
      rw [add_comm, mul_comm, Int.add_mul_ediv_left _ _ hP.ne',
        Int.ediv_eq_zero_of_lt hV0 hVlt, zero_add]
    have hmod : (d * es.prod + bmVal ds es) % es.prod = bmVal ds es := by
      rw [add_comm, mul_comm, Int.add_mul_emod_self_left,
        Int.emod_eq_of_lt hV0 hVlt]
    rw [hdiv, hmod, ih]

theorem bmVal_bmDigits :
    ∀ (es : List Int) (v : Int), (∀ e ∈ es, 0 ≤ e) → 0 ≤ v → v < es.prod →
      bmVal (bmDigits es v) es = v ∧ DigitsOk (bmDigits es v) es := by
  intro es
  induction es with
  | nil =>
    intro v _ h0 h1
    simp only [List.prod_nil] at h1
    have hv : v = 0 := by omega
    subst hv
    exact ⟨rfl, List.Forall₂.nil⟩
  | cons e es ih =>
    intro v hnn h0 h1
    simp only [List.prod_cons] at h1
    have he : 0 ≤ e := hnn e (List.mem_cons_self e es)
    have hP : 0 < es.prod := by
      rcases lt_or_le 0 es.prod with h | h
      · exact h
      · exact absurd h1 (by nlinarith)
    have he' : 0 < e := by
      rcases lt_or_le 0 e with h | h
      · exact h
      · exact absurd h1 (by nlinarith)
    have hd0 : 0 ≤ v / es.prod := Int.ediv_nonneg h0 hP.le
    have hdlt : v / es.prod < e := by
      rw [Int.ediv_lt_iff_lt_mul hP]
      linarith [h1]
    have hm0 : 0 ≤ v % es.prod := Int.emod_nonneg v hP.ne'
    have hmlt : v % es.prod < es.prod := Int.emod_lt_of_pos v hP
    obtain ⟨ihval, ihok⟩ := ih (v % es.prod) (fun x hx => hnn x (List.mem_cons_of_mem e hx)) hm0 hmlt
    constructor
    · simp only [bmDigits, bmVal, ihval]
      rw [mul_comm (v / es.prod) es.prod]
      exact Int.ediv_add_emod v es.prod
    · exact List.Forall₂.cons ⟨hd0, hdlt⟩ ihok

theorem digitsOk_getD {ds es : List Int} (h : DigitsOk ds es) {j : Nat} (hj : j < es.length) :
    0 ≤ ds.getD j 0 ∧ ds.getD j 0 < es.getD j 0 := by
  have hlen := h.length_eq
  rw [List.getD_eq_getElem _ _ (show j < ds.length by omega), List.getD_eq_getElem _ _ hj]
  have := (List.forall₂_iff_get.mp h).2 j (by omega) hj
  simpa using this

theorem ext_getD {l1 l2 : List Int} (hlen : l1.length = l2.length)
    (h : ∀ i, i < l1.length → l1.getD i 0 = l2.getD i 0) : l1 = l2 := by
  apply List.ext_getElem hlen
  intro n h1 h2
  have hn := h n h1
  rwa [List.getD_eq_getElem _ _ h1, List.getD_eq_getElem _ _ h2] at hn

theorem range_map_getD (l : List Int) (d : Int) :
    (List.range l.length).map (fun i => l.getD i d) = l := by
  apply List.ext_getElem
  · simp
  · intro n h1 h2
    rw [List.getElem_map, List.getElem_range, List.getD_eq_getElem l d h2]

theorem indexOf_getElem_self {l : List Nat} (hnd : l.Nodup) (k : Nat) (hk : k < l.length) :
    List.indexOf l[k] l = k := by
  have hmem : l[k] ∈ l := List.getElem_mem hk
  have hlt : List.indexOf l[k] l < l.length := List.indexOf_lt_length.mpr hmem
  exact hnd.getElem_inj_iff.mp (List.getElem_indexOf hlt)

namespace Indexing

theorem valid_order_length {ind : Indexing} (h : ind.valid) : ind.order.length = ind.rank :=
  h.1.2.1

theorem valid_perm {ind : Indexing} (h : ind.valid) :
    List.Perm ind.order (List.range ind.rank) := h.1.2.2.1

theorem valid_nodup {ind : Indexing} (h : ind.valid) : ind.order.Nodup :=
  ((valid_perm h).nodup_iff).mpr (List.nodup_range _)

theorem valid_mem_order {ind : Indexing} (h : ind.valid) {d : Nat} :
    d ∈ ind.order ↔ d < ind.rank := by
  rw [(valid_perm h).mem_iff, List.mem_range]

theorem valid_extAt_nonneg {ind : Indexing} (h : ind.valid) (d : Nat) : 0 ≤ ind.extAt d := by
  unfold extAt
  rcases lt_or_le d ind.extent.length with hd | hd
  · rw [List.getD_eq_getElem _ _ hd]
    exact h.1.2.2.2 _ (List.getElem_mem hd)
  · rw [List.getD_eq_default _ _ hd]

theorem stride_getElem {ind : Indexing} (h : ind.valid) (k : Nat) (hk : k < ind.order.length) :
    ind.stride (ind.order[k]) = ind.strideRank k := by
  unfold stride
  rw [indexOf_getElem_self (valid_nodup h) k hk]

theorem pdig_getD (ind : Indexing) (t : List Int) {j : Nat} (hj : j < ind.order.length) :
    (ind.pdig t).getD j 0 = t.getD (ind.order[j]) 0 - ind.baseAt (ind.order[j]) := by
  unfold pdig
  rw [List.getD_eq_getElem _ _ (by simpa using hj), List.getElem_map]

theorem pext_getD (ind : Indexing) {j : Nat} (hj : j < ind.order.length) :
    ind.pext.getD j 0 = ind.extAt (ind.order[j]) := by
  unfold pext
  rw [List.getD_eq_getElem _ _ (by simpa using hj), List.getElem_map]

theorem pext_length (ind : Indexing) : ind.pext.length = ind.order.length := by
  unfold pext
  simp

theorem pext_nonneg {ind : Indexing} (h : ind.valid) : ∀ e ∈ ind.pext, 0 ≤ e := by
  intro e he
  obtain ⟨d, _, rfl⟩ := List.mem_map.mp he
  exact valid_extAt_nonneg h d

theorem pext_prod {ind : Indexing} (h : ind.valid) : ind.pext.prod = ind.size := by
  unfold size
  rw [if_neg (show ¬ ind.rank = 0 by have := h.2; omega)]
  have hp : List.Perm (ind.pext) ((List.range ind.rank).map ind.extAt) :=
    (valid_perm h).map _
  rw [hp.prod_eq]
  have hr : (List.range ind.extent.length).map (fun i => ind.extent.getD i 0) = ind.extent :=
    range_map_getD ind.extent 0
  exact congrArg List.prod hr

theorem sum_drop_eq_bmVal {ind : Indexing} (h : ind.valid) (t : List Int) :
    ∀ m k, k + m = ind.order.length →
      (((ind.order.drop k).map (fun i => ind.stride i * (t.getD i 0 - ind.baseAt i))).sum)
        = bmVal ((ind.order.drop k).map (fun i => t.getD i 0 - ind.baseAt i))
            ((ind.order.drop k).map ind.extAt) := by
  intro m
  induction m with
  | zero =>
    intro k hk
    rw [List.drop_eq_nil_of_le (by omega)]
    simp [bmVal]
  | succ m ih =>
    intro k hk
    have hklt : k < ind.order.length := by omega
    rw [List.drop_eq_getElem_cons hklt]
    simp only [List.map_cons, List.sum_cons, bmVal]
    rw [stride_getElem h k hklt, ih (k+1) (by omega)]
    unfold strideRank
    ring

theorem tuple_to_index_eq_bmVal {ind : Indexing} (h : ind.valid) (t : List Int) :
    ind.tuple_to_index t = bmVal (ind.pdig t) ind.pext := by
  unfold tuple_to_index pdig pext
  have hperm :=
    (valid_perm h).map (fun i => ind.stride i * (t.getD i 0 - ind.baseAt i))
  rw [← hperm.sum_eq]
  have hs := sum_drop_eq_bmVal h t ind.order.length 0 (by omega)
  simpa using hs

theorem ittDigits_eq_bmDigits (ind : Indexing) :
    ∀ m k rem, k + m = ind.order.length →
      ittDigits ind m k rem = bmDigits ((ind.order.drop k).map ind.extAt) rem := by
  intro m
  induction m with
  | zero =>
    intro k rem hk
    rw [List.drop_eq_nil_of_le (by omega)]
    rfl
  | succ m ih =>
    intro k rem hk
    have hklt : k < ind.order.length := by omega
    rw [List.drop_eq_getElem_cons hklt]
    simp only [List.map_cons, ittDigits, bmDigits, strideRank]
    rw [ih (k+1) (rem % ((ind.order.drop (k+1)).map ind.extAt).prod) (by omega)]

theorem index_to_tuple_length (ind : Indexing) (ix : Int) :
    (ind.index_to_tuple ix).length = ind.rank := by
  unfold index_to_tuple
  simp

theorem index_to_tuple_getD {ind : Indexing} (h : ind.valid) (ix : Int) {i : Nat}
    (hi : i < ind.rank) :
    (ind.index_to_tuple ix).getD i 0
      = ind.baseAt i + (bmDigits ind.pext ix).getD (List.indexOf i ind.order) 0 := by
  unfold index_to_tuple
  have hlen : i < ((List.range ind.rank).map (fun i =>
      ind.baseAt i + (ittDigits ind ind.rank 0 ix).getD (List.indexOf i ind.order) 0)).length := by
    simpa using hi
  rw [List.getD_eq_getElem _ _ hlen, List.getElem_map]
  have hb := ittDigits_eq_bmDigits ind ind.rank 0 ix
    (by have := valid_order_length h; omega)
  rw [List.drop_zero] at hb
  rw [List.getElem_range, hb]
  rfl

theorem inBounds_digitsOk {ind : Indexing} (h : ind.valid) {t : List Int}
    (ht : ind.InBounds t) : DigitsOk (ind.pdig t) ind.pext := by
  unfold DigitsOk pdig pext
  rw [List.forall₂_map_left_iff, List.forall₂_map_right_iff, List.forall₂_same]
  intro d hd
  have hdr : d < ind.rank := (valid_mem_order h).mp hd
  have hbd := ht.2 d hdr
  omega

theorem round_trip {ind : Indexing} (h : ind.valid) {t : List Int} (ht : ind.InBounds t) :
    ind.index_to_tuple (ind.tuple_to_index t) = t := by
  have hOk := inBounds_digitsOk h ht
  have hkey : bmDigits ind.pext (ind.tuple_to_index t) = ind.pdig t := by
    rw [tuple_to_index_eq_bmVal h]
    exact bmDigits_bmVal hOk
  apply ext_getD (by rw [index_to_tuple_length, ht.1])
  intro i hi
  have hix : i < ind.rank := by rwa [index_to_tuple_length] at hi
  rw [index_to_tuple_getD h _ hix, hkey]
  have hmem : i ∈ ind.order := (valid_mem_order h).mpr hix
  have hj : List.indexOf i ind.order < ind.order.length := List.indexOf_lt_length.mpr hmem
  rw [pdig_getD ind t hj, List.getElem_indexOf hj]
  ring

theorem tuple_to_index_range {ind : Indexing} (h : ind.valid) {t : List Int}
    (ht : ind.InBounds t) : 0 ≤ ind.tuple_to_index t ∧ ind.tuple_to_index t < ind.size := by
  rw [tuple_to_index_eq_bmVal h, ← pext_prod h]
  exact bmVal_bounds (inBounds_digitsOk h ht)

theorem index_to_tuple_spec {ind : Indexing} (h : ind.valid) {ix : Int} (h0 : 0 ≤ ix)
    (hlt : ix < ind.size) :
    ind.InBounds (ind.index_to_tuple ix) ∧ ind.tuple_to_index (ind.index_to_tuple ix) = ix := by
  have hpp : ix < ind.pext.prod := by rwa [pext_prod h]
  obtain ⟨hval, hok⟩ := bmVal_bmDigits ind.pext ix (pext_nonneg h) h0 hpp
  have hdl : (bmDigits ind.pext ix).length = ind.pext.length := hok.length_eq
  have hplen := pext_length ind
  have hinb : ind.InBounds (ind.index_to_tuple ix) := by
    refine ⟨index_to_tuple_length ind ix, ?_⟩
    intro i hi
    rw [index_to_tuple_getD h ix hi]
    have hmem : i ∈ ind.order := (valid_mem_order h).mpr hi
    have hj : List.indexOf i ind.order < ind.order.length := List.indexOf_lt_length.mpr hmem
    have hbd := digitsOk_getD hok (show List.indexOf i ind.order < ind.pext.length by omega)
    rw [pext_getD ind hj, List.getElem_indexOf hj] at hbd
    omega
  refine ⟨hinb, ?_⟩
  rw [tuple_to_index_eq_bmVal h]
  have hpd : ind.pdig (ind.index_to_tuple ix) = bmDigits ind.pext ix := by
    apply ext_getD
    · unfold pdig
      simp only [List.length_map]
      omega
    · intro j hjl
      have hj : j < ind.order.length := by
        unfold pdig at hjl
        simpa using hjl
      rw [pdig_getD ind _ hj]
      have hrlt : ind.order[j] < ind.rank :=
        (valid_mem_order h).mp (List.getElem_mem hj)
      rw [index_to_tuple_getD h ix hrlt, indexOf_getElem_self (valid_nodup h) j hj]
      ring
  rw [hpd]
  exact hval

end Indexing

/-- Enumeration of every legal coordinate tuple of a base/extent box, first
dimension outermost: coordinate `i` ranges over `[base[i], base[i]+extent[i])`. -/
def tupleSpace : List Int → List Int → List (List Int)
  | b :: bs, e :: es =>
    ((List.range e.toNat).map (fun (j : Nat) => b + (j : Int))).flatMap
      (fun c => (tupleSpace bs es).map (fun t => c :: t))
  | _, _ => [[]]

theorem sum_map_constLen {α : Type} (l : List α) (f : α → Nat) (n : Nat)
    (h : ∀ a ∈ l, f a = n) : (l.map f).sum = l.length * n := by
  induction l with
  | nil => simp
  | cons a l ih =>
    simp only [List.map_cons, List.sum_cons, List.length_cons]
    rw [h a (List.mem_cons_self a l), ih (fun x hx => h x (List.mem_cons_of_mem a hx))]
    ring

theorem tupleSpace_length :
    ∀ (es bs : List Int), bs.length = es.length →
      (tupleSpace bs es).length = (es.map Int.toNat).prod := by
  intro es
  induction es with
  | nil =>
    intro bs hb
    rw [List.length_eq_zero.mp hb]
    rfl
  | cons e es ih =>
    intro bs hb
    cases bs with
    | nil => simp at hb
    | cons b bs =>
      have hbs : bs.length = es.length := by simpa using hb
      have hlen : ∀ c ∈ (List.range e.toNat).map (fun (j : Nat) => b + (j : Int)),
          (List.length ∘ fun c => (tupleSpace bs es).map (fun t => c :: t)) c
            = (es.map Int.toNat).prod := by
        intro c _
        simp [Function.comp, ih bs hbs]
      simp only [tupleSpace]
      rw [List.length_flatMap, sum_map_constLen _ _ _ hlen]
      simp [List.prod_cons]

theorem tupleSpace_mem :
    ∀ (es bs x : List Int), bs.length = es.length →
      (x ∈ tupleSpace bs es ↔ x.length = es.length ∧
        ∀ i, i < es.length →
          bs.getD i 0 ≤ x.getD i 0 ∧ x.getD i 0 < bs.getD i 0 + es.getD i 0) := by
  intro es
  induction es with
  | nil =>
    intro bs x hb
    rw [List.length_eq_zero.mp hb]
    constructor
    · intro hx
      have hx0 : x = [] := by simpa [tupleSpace] using hx
      subst hx0
      refine ⟨rfl, ?_⟩
      intro i hi
      simp at hi
    · rintro ⟨h1, _⟩
      have hx0 : x = [] := List.length_eq_zero.mp h1
      subst hx0
      simp [tupleSpace]
  | cons e es ih =>
    intro bs x hb
    cases bs with
    | nil => simp at hb
    | cons b bs =>
      have hbs : bs.length = es.length := by simpa using hb
      simp only [tupleSpace, List.mem_flatMap, List.mem_map, List.mem_range]
      constructor
      · rintro ⟨c, ⟨j, hj, rfl⟩, t, ht, rfl⟩
        obtain ⟨htl, htb⟩ := (ih bs t hbs).mp ht
        refine ⟨by simp [htl], ?_⟩
        intro i hi
        cases i with
        | zero =>
          simp only [List.getD_cons_zero]
          omega
        | succ i =>
          simp only [List.getD_cons_succ]
          exact htb i (by simp at hi; omega)
      · rintro ⟨hlen, hbd⟩
        cases x with
        | nil => simp at hlen
        | cons c t =>
          have h0 := hbd 0 (by simp)
          simp only [List.getD_cons_zero] at h0
          refine ⟨c, ⟨(c - b).toNat, by omega, by omega⟩, t, ?_, rfl⟩
          apply (ih bs t hbs).mpr
          refine ⟨by simpa using hlen, ?_⟩
          intro i hi
          have hstep := hbd (i + 1) (by simp; omega)
          simpa only [List.getD_cons_succ] using hstep

theorem tupleSpace_nodup : ∀ (es bs : List Int), (tupleSpace bs es).Nodup := by
  intro es
  induction es with
  | nil =>
    intro bs
    cases bs <;> simp [tupleSpace]
  | cons e es ih =>
    intro bs
    cases bs with
    | nil => simp [tupleSpace]
    | cons b bs =>
      simp only [tupleSpace]
      apply List.nodup_flatMap.mpr
      constructor
      · intro c _
        exact (ih bs).map (fun t1 t2 h12 => by injection h12)
      · have hnd : ((List.range e.toNat).map (fun (j : Nat) => b + (j : Int))).Nodup :=
          (List.nodup_range _).map (fun j1 j2 h12 => by omega)
        apply hnd.imp
        intro c1 c2 hne x hx1 hx2
        obtain ⟨t1, _, rfl⟩ := List.mem_map.mp hx1
        obtain ⟨t2, _, heq⟩ := List.mem_map.mp hx2
        exact hne (by injection heq.symm)

theorem prod_toNat_cast :
    ∀ (l : List Int), (∀ e ∈ l, 0 ≤ e) → (((l.map Int.toNat).prod : Nat) : Int) = l.prod := by
  intro l
  induction l with
  | nil => intro _; simp
  | cons a l ih =>
    intro hnn
    simp only [List.map_cons, List.prod_cons, Nat.cast_mul]
    rw [ih (fun x hx => hnn x (List.mem_cons_of_mem a hx)),
      Int.toNat_of_nonneg (hnn a (List.mem_cons_self a l))]

theorem sum_range_single (n : Nat) (g : Nat → Int) (d : Nat) (hd : d < n) :
    ((List.range n).map (fun i => if i = d then g i else 0)).sum = g d := by
  induction n with
  | zero => omega
  | succ n ih =>
    rw [List.range_succ, List.map_append, List.sum_append]
    simp only [List.map_cons, List.map_nil, List.sum_cons, List.sum_nil]
    rcases Nat.lt_or_ge d n with hdn | hdn
    · rw [ih hdn, if_neg (by omega)]
      ring
    · have hdq : d = n := by omega
      subst hdq
      rw [if_pos rfl]
      have hz : ((List.range d).map (fun i => if i = d then g i else 0)).sum = 0 := by
        apply List.sum_eq_zero
        intro x hx
        obtain ⟨i, hi, rfl⟩ := List.mem_map.mp hx
        rw [if_neg (show ¬ i = d by have := List.mem_range.mp hi; omega)]
      rw [hz]
      ring

/-- Column-major engine of `src/tests/ibmisc/test_indexing.cpp`
(`indexing_column_major_test`): base `{0,0}`, extent `{5,4}`, order `{1,0}`. -/
def indexingColMajor : Indexing := ⟨[0, 0], [5, 4], [1, 0]⟩

/-- Row-major engine of `src/tests/ibmisc/test_indexing.cpp`
(`indexing_row_major_test`): base `{0,0}`, extent `{4,5}`, order `{0,1}`. -/
def indexingRowMajor : Indexing := ⟨[0, 0], [4, 5], [0, 1]⟩

/-- Engine sharing base and extent with `indexingColMajor` but carrying the
opposite traversal order. -/
def indexingColMajorSwapped : Indexing := ⟨[0, 0], [5, 4], [0, 1]⟩

/-- Modelled from the spec: a named group of the external structured store
(§4.1 serialization hook, §6) — the three parameter sequences of an engine
plus the coordinate/index element type tag.  The store itself and its
on-disk layout are external collaborators. -/
structure NcGroup where
  typeTag : String
  base : List Int
  extent : List Int
  order : List Nat
  deriving Repr, DecidableEq

/-- Modelled from the spec: the external structured store, a collection of
named groups (association list from group name to group). -/
abbrev NcStore := List (String × NcGroup)

/-- Modelled from the spec: writing an engine's parameters (base, extent,
order and the element type tag) into a named group of the store. -/
def ncWrite (store : NcStore) (name ttag : String) (ind : Indexing) : NcStore :=
  (name, ⟨ttag, ind.base, ind.extent, ind.order⟩) :: store

/-- Modelled from the spec: reconstructing an engine from the named group. -/
def ncRead (store : NcStore) (name : String) : Option Indexing :=
  (List.lookup name store).map (fun g => ⟨g.base, g.extent, g.order⟩)

/-- C1: for every validly constructed Indexing engine and every in-bounds
coordinate tuple `t`, `index_to_tuple (tuple_to_index t) = t`; and for
every flat index in `[0, size())`, `index_to_tuple` returns the unique
in-bounds tuple that `tuple_to_index` maps to that index. -/
theorem spec_c1 (ind : Indexing) (h : ind.valid) :
    (∀ t, ind.InBounds t → ind.index_to_tuple (ind.tuple_to_index t) = t) ∧
    (∀ ix : Int, 0 ≤ ix → ix < ind.size →
      ind.InBounds (ind.index_to_tuple ix) ∧
      ind.tuple_to_index (ind.index_to_tuple ix) = ix ∧
      ∀ t, ind.InBounds t → ind.tuple_to_index t = ix → t = ind.index_to_tuple ix) := by
  refine ⟨fun t ht => Indexing.round_trip h ht, fun ix h0 hlt => ?_⟩
  obtain ⟨hinb, hval⟩ := Indexing.index_to_tuple_spec h h0 hlt
  refine ⟨hinb, hval, fun t ht hieq => ?_⟩
  rw [← hieq]
  exact (Indexing.round_trip h ht).symm

theorem spec_c1_witness :
    indexingColMajor.valid ∧
    indexingColMajor.index_to_tuple (indexingColMajor.tuple_to_index [3, 2]) = [3, 2] :=
  ⟨by decide, (spec_c1 indexingColMajor (by decide)).1 [3, 2] (by decide)⟩

/-- C2: for every validly constructed engine, `tuple_to_index` restricted to
the in-bounds tuples is a bijection onto `{0, …, size()-1}`: it is
injective, lands in `[0, size())`, and hits every flat index in that
range. -/
theorem spec_c2 (ind : Indexing) (h : ind.valid) :
    (∀ t1 t2, ind.InBounds t1 → ind.InBounds t2 →
      ind.tuple_to_index t1 = ind.tuple_to_index t2 → t1 = t2) ∧
    (∀ t, ind.InBounds t → 0 ≤ ind.tuple_to_index t ∧ ind.tuple_to_index t < ind.size) ∧
    (∀ ix : Int, 0 ≤ ix → ix < ind.size → ∃ t, ind.InBounds t ∧ ind.tuple_to_index t = ix) := by
  refine ⟨?_, fun t ht => Indexing.tuple_to_index_range h ht, fun ix h0 hlt => ?_⟩
  · intro t1 t2 h1 h2 heq
    have hrt := Indexing.round_trip h h1
    rw [heq, Indexing.round_trip h h2] at hrt
    exact hrt.symm
  · obtain ⟨hinb, hval⟩ := Indexing.index_to_tuple_spec h h0 hlt
    exact ⟨_, hinb, hval⟩

theorem spec_c2_witness :
    indexingColMajor.valid ∧
    (0 ≤ indexingColMajor.tuple_to_index [3, 2] ∧
      indexingColMajor.tuple_to_index [3, 2] < indexingColMajor.size) :=
  ⟨by decide, (spec_c2 indexingColMajor (by decide)).2.1 [3, 2] (by decide)⟩

/-- C3: the concrete scenarios of `src/tests/ibmisc/test_indexing.cpp`: with
base `{0,0}`, extent `{5,4}`, order `{1,0}` (dimension 0 fastest-varying,
stride 1), tuple `{3,2}` maps to 13, `size()` is 20 and 13 maps back to
`{3,2}`; with base `{0,0}`, extent `{4,5}`, order `{0,1}` (dimension 1
fastest-varying, stride 1), tuple `{3,2}` maps to 17, `size()` is 20 and
17 maps back to `{3,2}`. -/
theorem spec_c3 :
    (indexingColMajor.tuple_to_index [3, 2] = 13 ∧ indexingColMajor.size = 20 ∧
      indexingColMajor.index_to_tuple 13 = [3, 2] ∧ indexingColMajor.stride 0 = 1) ∧
    (indexingRowMajor.tuple_to_index [3, 2] = 17 ∧ indexingRowMajor.size = 20 ∧
      indexingRowMajor.index_to_tuple 17 = [3, 2] ∧ indexingRowMajor.stride 1 = 1) := by
  decide

/-- Stride law asserted by claim C4, following the spec's §3/§4.1 convention:
the stride of the dimension at traversal position `k` would be the product
of the extents of the dimensions at traversal positions before `k` (so
`order[0]` would be the fastest-varying dimension, stride 1). -/
def c4StrideClaim : Prop :=
  ∀ ind : Indexing, ind.valid → ∀ k, k < ind.rank →
    ind.stride (ind.order.getD k 0) = ((ind.order.take k).map ind.extAt).prod

/-- C4 counterexample: the claimed stride direction contradicts the test
vectors.  For the column-major test engine (base `{0,0}`, extent `{5,4}`,
order `{1,0}`) the claim requires `stride[order[0]] = stride[1] = 1`, but
the engine pinned by the in-repository test (`tuple_to_index {3,2} = 13`,
not 14) has `stride[1] = 5`: `order[0]` is the slowest-varying dimension,
not the fastest. -/
theorem spec_c4_counterexample : ¬ c4StrideClaim := by
  intro hcl
  exact absurd (hcl indexingColMajor (by decide) 0 (by decide)) (by decide)

/-- C4 (amended): for every validly constructed engine, the stride of the
dimension at traversal position `k` equals the product of the extents of
the dimensions at traversal positions after `k` (so `stride[order[rank-1]]
= 1`), and `tuple_to_index t` equals
`Σ_i stride[i] * (t[i] - base[i])`. -/
theorem spec_c4 (ind : Indexing) (h : ind.valid) :
    (∀ k, k < ind.rank →
      ind.stride (ind.order.getD k 0) = ((ind.order.drop (k + 1)).map ind.extAt).prod) ∧
    (∀ t, ind.tuple_to_index t =
      ((List.range ind.rank).map
        (fun i => ind.stride i * (t.getD i 0 - ind.baseAt i))).sum) := by
  refine ⟨?_, fun t => rfl⟩
  intro k hk
  have hk2 : k < ind.order.length := by rw [Indexing.valid_order_length h]; exact hk
  rw [List.getD_eq_getElem _ _ hk2]
  exact Indexing.stride_getElem h k hk2

theorem spec_c4_witness :
    indexingColMajor.valid ∧
    indexingColMajor.stride (indexingColMajor.order.getD 0 0)
      = ((indexingColMajor.order.drop 1).map indexingColMajor.extAt).prod :=
  ⟨by decide, (spec_c4 indexingColMajor (by decide)).1 0 (by decide)⟩

/-- C5: for every validly constructed engine, `size()` returns the product of
all extents; it returns 0 if the rank is 0 or any extent is 0; and the
product equals the number of distinct in-bounds tuples, witnessed by the
duplicate-free enumeration `tupleSpace` of exactly the in-bounds tuples. -/
theorem spec_c5 (ind : Indexing) (h : ind.valid) :
    ind.size = ind.extent.prod ∧
    ((ind.rank = 0 ∨ 0 ∈ ind.extent) → ind.size = 0) ∧
    (tupleSpace ind.base ind.extent).Nodup ∧
    (∀ t, t ∈ tupleSpace ind.base ind.extent ↔ ind.InBounds t) ∧
    ((tupleSpace ind.base ind.extent).length : Int) = ind.size := by
  have hlen : ind.base.length = ind.extent.length := h.1.1
  have hsz : ind.size = ind.extent.prod := by
    unfold Indexing.size
    rw [if_neg (show ¬ ind.rank = 0 by have := h.2; omega)]
  refine ⟨hsz, ?_, tupleSpace_nodup _ _, ?_, ?_⟩
  · rintro (h0 | h0)
    · exact absurd h0 (by have := h.2; omega)
    · rw [hsz]
      exact List.prod_eq_zero h0
  · intro t
    rw [tupleSpace_mem ind.extent ind.base t hlen]
    exact Iff.rfl
  · rw [tupleSpace_length ind.extent ind.base hlen, hsz]
    exact prod_toNat_cast ind.extent h.1.2.2.2

theorem spec_c5_witness :
    indexingColMajor.valid ∧ indexingColMajor.size = indexingColMajor.extent.prod :=
  ⟨by decide, (spec_c5 indexingColMajor (by decide)).1⟩

/-- C6: construction fails with `InvalidArgument` whenever the sequences have
differing lengths, or `order` is not a permutation of `[0,N)`, or some
extent is negative; the `Except.error` result carries no engine, so no
usable engine is ever produced in these cases. -/
theorem spec_c6 (base extent : List Int) (order : List Nat)
    (h : base.length ≠ extent.length ∨ order.length ≠ extent.length ∨
      ¬ List.Perm order (List.range extent.length) ∨ ∃ e ∈ extent, e < 0) :
    Indexing.make base extent order = Except.error IbError.InvalidArgument := by
  unfold Indexing.make
  have hnv : ¬ Indexing.validParams base extent order := by
    rintro ⟨h1, h2, h3, h4⟩
    rcases h with h | h | h | ⟨e, he, hlt⟩
    · exact h h1
    · exact h h2
    · exact h h3
    · exact absurd (h4 e he) (by omega)
  rw [if_neg hnv]

theorem spec_c6_witness :
    (([0, 0] : List Int).length ≠ ([5, 4] : List Int).length ∨
      ([0, 0] : List Nat).length ≠ ([5, 4] : List Int).length ∨
      ¬ List.Perm ([0, 0] : List Nat) (List.range ([5, 4] : List Int).length) ∨
      ∃ e ∈ ([5, 4] : List Int), e < 0) ∧
    Indexing.make [0, 0] [5, 4] [0, 0] = Except.error IbError.InvalidArgument :=
  ⟨by decide, spec_c6 [0, 0] [5, 4] [0, 0] (by decide)⟩

/-- C7: writing an engine's parameters (base, extent, order, type tag) to a
named group of the structured store and reconstructing from that group
yields an engine with identical `size()` and with `tuple_to_index` and
`index_to_tuple` agreeing with the original everywhere (in particular on
every in-bounds tuple, which stay in bounds). -/
theorem spec_c7 (store : NcStore) (name ttag : String) (ind : Indexing) :
    ∃ ind2, ncRead (ncWrite store name ttag ind) name = some ind2 ∧
      ind2.size = ind.size ∧
      (∀ t, ind.InBounds t ↔ ind2.InBounds t) ∧
      (∀ t, ind2.tuple_to_index t = ind.tuple_to_index t) ∧
      (∀ ix : Int, ind2.index_to_tuple ix = ind.index_to_tuple ix) := by
  refine ⟨ind, ?_, rfl, fun t => Iff.rfl, fun t => rfl, fun ix => rfl⟩
  unfold ncRead ncWrite
  simp [List.lookup]

/-- Order-sensitivity law asserted by claim C8: with base and extent fixed and
two different order permutations (rank at least 2 and the extents along
the differing axes not all 1), EVERY in-bounds tuple would map to
different flat indices under the two engines. -/
def c8OrderSensitivityClaim : Prop :=
  ∀ ind1 ind2 : Indexing, ind1.valid → ind2.valid →
    ind1.base = ind2.base → ind1.extent = ind2.extent → ind1.order ≠ ind2.order →
    ¬ ind1.rank ≤ 1 →
    ¬ (∀ k, k < ind1.rank → ind1.order.getD k 0 ≠ ind2.order.getD k 0 →
        ind1.extAt (ind1.order.getD k 0) = 1 ∧ ind1.extAt (ind2.order.getD k 0) = 1) →
    ∀ t, ind1.InBounds t → ind1.tuple_to_index t ≠ ind2.tuple_to_index t

/-- C8 counterexample: the base tuple always maps to flat index 0 under every
engine, whatever the order, because every term of
`Σ_i stride[i] * (t[i] - base[i])` vanishes.  The engines with base
`{0,0}`, extent `{5,4}` and orders `{1,0}` versus `{0,1}` satisfy every
hypothesis of the claim, yet the in-bounds tuple `{0,0}` maps to 0 under
both, so not EVERY in-bounds tuple maps to different indices. -/
theorem spec_c8_counterexample : ¬ c8OrderSensitivityClaim := by
  intro hcl
  have hx := hcl indexingColMajor indexingColMajorSwapped (by decide) (by decide)
    rfl rfl (by decide) (by decide) (by decide) [0, 0] (by decide)
  exact hx (by decide)

/-- C8 (amended): for two validly constructed engines sharing base and extent
(all extents at least 1), whenever their stride tables differ at some
dimension `d` of extent at least 2, some in-bounds tuple maps to different
flat indices under the two engines — the tuple that steps one unit from
the base along `d`.  The universal form of the claim fails (the base tuple
maps to 0 under both engines), and differing orders alone do not suffice:
orders that differ only on extent-1 axes can produce identical stride
tables, hence identical mappings. -/
theorem spec_c8 (ind1 ind2 : Indexing) (_hv1 : ind1.valid) (_hv2 : ind2.valid)
    (hb : ind1.base = ind2.base) (he : ind1.extent = ind2.extent)
    (hpos : ∀ e ∈ ind1.extent, 1 ≤ e) (d : Nat) (hd : d < ind1.rank)
    (hext : 1 < ind1.extAt d) (hs : ind1.stride d ≠ ind2.stride d) :
    ∃ t, ind1.InBounds t ∧ ind2.InBounds t ∧
      ind1.tuple_to_index t ≠ ind2.tuple_to_index t := by
  have hr2 : ind2.rank = ind1.rank := by
    unfold Indexing.rank
    rw [← he]
  have hb2 : ∀ i, ind2.baseAt i = ind1.baseAt i := by
    intro i
    unfold Indexing.baseAt
    rw [← hb]
  have he2 : ∀ i, ind2.extAt i = ind1.extAt i := by
    intro i
    unfold Indexing.extAt
    rw [← he]
  have hext1 : ∀ i, i < ind1.rank → 1 ≤ ind1.extAt i := by
    intro i hi
    unfold Indexing.extAt
    rw [List.getD_eq_getElem _ _ (show i < ind1.extent.length from hi)]
    exact hpos _ (List.getElem_mem _)
  set t : List Int :=
    (List.range ind1.rank).map (fun i => ind1.baseAt i + if i = d then 1 else 0) with ht
  have htg : ∀ i, i < ind1.rank → t.getD i 0 = ind1.baseAt i + (if i = d then 1 else 0) := by
    intro i hi
    rw [ht, List.getD_eq_getElem _ _ (by simpa using hi), List.getElem_map, List.getElem_range]
  have hcalc : ∀ jnd : Indexing, jnd.rank = ind1.rank →
      (∀ i, jnd.baseAt i = ind1.baseAt i) → jnd.tuple_to_index t = jnd.stride d := by
    intro jnd hr hbase
    unfold Indexing.tuple_to_index
    rw [hr]
    have hmap : (List.range ind1.rank).map
        (fun i => jnd.stride i * (t.getD i 0 - jnd.baseAt i))
          = (List.range ind1.rank).map (fun i => if i = d then jnd.stride i else 0) := by
      apply List.map_congr_left
      intro i hi
      rw [htg i (List.mem_range.mp hi), hbase i]
      by_cases hc : i = d
      · rw [if_pos hc, if_pos hc]
        ring
      · rw [if_neg hc, if_neg hc]
        ring
    rw [hmap]
    exact sum_range_single ind1.rank jnd.stride d hd
  have hinb : ∀ jnd : Indexing, jnd.rank = ind1.rank →
      (∀ i, jnd.baseAt i = ind1.baseAt i) → (∀ i, jnd.extAt i = ind1.extAt i) →
      jnd.InBounds t := by
    intro jnd hr hbase hextq
    refine ⟨by simp [ht, hr], ?_⟩
    intro i hi
    rw [hr] at hi
    rw [htg i hi, hbase i, hextq i]
    have hei := hext1 i hi
    by_cases hc : i = d
    · subst hc
      constructor
      · omega
      · omega
    · rw [if_neg hc]
      omega
  refine ⟨t, hinb ind1 rfl (fun _ => rfl) (fun _ => rfl), hinb ind2 hr2 hb2 he2, ?_⟩
  rw [hcalc ind1 rfl (fun _ => rfl), hcalc ind2 hr2 hb2]
  exact hs

theorem spec_c8_witness :
    indexingColMajor.valid ∧ indexingColMajorSwapped.valid ∧
    indexingColMajor.base = indexingColMajorSwapped.base ∧
    indexingColMajor.extent = indexingColMajorSwapped.extent ∧
    (∀ e ∈ indexingColMajor.extent, 1 ≤ e) ∧
    0 < indexingColMajor.rank ∧ 1 < indexingColMajor.extAt 0 ∧
    indexingColMajor.stride 0 ≠ indexingColMajorSwapped.stride 0 ∧
    ∃ t, indexingColMajor.InBounds t ∧ indexingColMajorSwapped.InBounds t ∧
      indexingColMajor.tuple_to_index t ≠ indexingColMajorSwapped.tuple_to_index t :=
  ⟨by decide, by decide, by decide, by decide, by decide, by decide, by decide, by decide,
    spec_c8 indexingColMajor indexingColMajorSwapped (by decide) (by decide) (by decide)
      (by decide) (by decide) 0 (by decide) (by decide) (by decide)⟩

end Ibmisc

namespace Spsparse

/-- Eigen sparse matrix as built by `setFromTriplets`: a rows/cols shape and
the entry function; `setFromTriplets` sums the values of all triplets that
name the same position.  C++ `double` values are modelled as `Rat`. -/
structure EigenSparse where
  rows : Int
  cols : Int
  entry : Int → Int → Rat

/-- Embedding of `Eigen::SparseMatrix::setFromTriplets` as used in
`src/unnamed/part_000`: the entry at `(i, j)` is the sum of the values of
the triplets carrying position `(i, j)`. -/
def setFromTriplets (rows cols : Int) (ts : List (Int × Int × Rat)) : EigenSparse :=
  ⟨rows, cols,
    fun i j => ((ts.filter (fun p => p.1 == i && p.2.1 == j)).map (fun p => p.2.2)).sum⟩

/-- Embedding of `spsparse::SparseSet` as `SparseTriplets::to_eigen` consumes
it: a sparse-to-dense index translation plus the dense extent. -/
structure SparseSetM where
  to_dense : Int → Int
  dense_extent : Int

/-- Embedding of `spsparse::SparseTriplets` (src/unnamed/part_000): the two
dimension maps `dims[0]`, `dims[1]` and the rank-2 coordinate/value
entries of the internal matrix `M`. -/
structure SparseTriplets where
  dim0 : SparseSetM
  dim1 : SparseSetM
  M : List (Int × Int × Rat)

/-- Embedding of `SparseTriplets::to_eigen` (src/unnamed/part_000, lines
150-167): for each entry, index `ix0 = (transpose == 'T' ? 1 : 0)` and
`ix1 = (transpose == 'T' ? 0 : 1)` select which coordinate (and which
dimension map) provides the dense row and column; the value is inverted
elementwise when `invert` is set; the result shape takes the dense extents
of the selected dimension maps. -/
def SparseTriplets.to_eigen (st : SparseTriplets) (transpose : Char) (invert : Bool) :
    EigenSparse :=
  setFromTriplets
    (if transpose = 'T' then st.dim1.dense_extent else st.dim0.dense_extent)
    (if transpose = 'T' then st.dim0.dense_extent else st.dim1.dense_extent)
    (st.M.map (fun e =>
      ((if transpose = 'T' then st.dim1.to_dense e.2.1 else st.dim0.to_dense e.1),
        (if transpose = 'T' then st.dim0.to_dense e.1 else st.dim1.to_dense e.2.1),
        (if invert then 1 / e.2.2 else e.2.2))))

/-- Embedding of `diag_matrix` (src/unnamed/part_000, lines 188-204): an
n-by-n sparse matrix from the triplets `(i, i, invert ? 1/diag(i) :
diag(i))`; the division carries no zero guard. -/
def diag_matrix (diag : List Rat) (invert : Bool) : EigenSparse :=
  setFromTriplets (diag.length : Int) (diag.length : Int)
    ((List.range diag.length).map (fun (i : Nat) =>
      ((i : Int), (i : Int), if invert then 1 / diag.getD i 0 else diag.getD i 0)))

/-- Embedding of `weight_matrix` (src/unnamed/part_000): `diag_matrix` without
inversion. -/
def weight_matrix (weights : List Rat) : EigenSparse := diag_matrix weights false

/-- Embedding of `scale_matrix` (src/unnamed/part_000, lines 214-216):
`diag_matrix` with inversion, with no zero-entry check anywhere. -/
def scale_matrix (weights : List Rat) : EigenSparse := diag_matrix weights true

/-- Transposing every triplet transposes every entry of the assembled
matrix: summing the values at `(j, i)` after swapping the two computed
coordinates equals summing the values at `(i, j)` before swapping. -/
theorem sum_filter_swap (i j : Int) :
    ∀ (l : List (Int × Int × Rat)) (fA fB : (Int × Int × Rat) → Int)
      (fv : (Int × Int × Rat) → Rat),
      ((((l.map (fun e => (fA e, fB e, fv e))).filter
          (fun p => p.1 == j && p.2.1 == i)).map (fun p => p.2.2)).sum : Rat)
        = (((l.map (fun e => (fB e, fA e, fv e))).filter
          (fun p => p.1 == i && p.2.1 == j)).map (fun p => p.2.2)).sum := by
  intro l fA fB fv
  induction l with
  | nil => rfl
  | cons e l ih =>
    simp only [List.map_cons, List.filter_cons]
    have hc : ((fB e == i) && (fA e == j)) = ((fA e == j) && (fB e == i)) :=
      Bool.and_comm _ _
    rw [hc]
    by_cases h1 : ((fA e == j) && (fB e == i)) = true
    · rw [if_pos h1, if_pos h1]
      simp only [List.map_cons, List.sum_cons, ih]
    · rw [if_neg h1, if_neg h1]
      exact ih

/-- C9: `to_eigen 'T' invert` is the matrix transpose of `to_eigen '.' invert`:
the row and column dimensions are swapped and the entry at `(j, i)` of the
former equals the entry at `(i, j)` of the latter, for every position. -/
theorem spec_c9 (st : SparseTriplets) (invert : Bool) :
    (st.to_eigen 'T' invert).rows = (st.to_eigen '.' invert).cols ∧
    (st.to_eigen 'T' invert).cols = (st.to_eigen '.' invert).rows ∧
    ∀ i j : Int, (st.to_eigen 'T' invert).entry j i = (st.to_eigen '.' invert).entry i j := by
  have hTT : (('T' : Char) = 'T') = True := by simp
  have hDT : (('.' : Char) = 'T') = False := by simp
  refine ⟨?_, ?_, ?_⟩
  · simp only [SparseTriplets.to_eigen, setFromTriplets, hTT, hDT, if_true, if_false]
  · simp only [SparseTriplets.to_eigen, setFromTriplets, hTT, hDT, if_true, if_false]
  · intro i j
    simp only [SparseTriplets.to_eigen, setFromTriplets, hTT, hDT, if_true, if_false]
    exact sum_filter_swap i j st.M (fun e => st.dim1.to_dense e.2.1)
      (fun e => st.dim0.to_dense e.1) (fun e => if invert then 1 / e.2.2 else e.2.2)

/-- Filtering the range for one hit leaves exactly that hit. -/
theorem filter_range_beq_single (i : Nat) :
    ∀ n : Nat, i < n → (List.range n).filter (fun k => k == i) = [i] := by
  intro n
  induction n with
  | zero => omega
  | succ n ih =>
    intro hi
    rw [List.range_succ, List.filter_append]
    rcases Nat.lt_or_ge i n with hin | hin
    · rw [ih hin]
      have hne : ((n == i) = false) := by
        simp only [beq_eq_false_iff_ne]
        omega
      simp [hne]
    · have hieq : i = n := by omega
      subst hieq
      have hz : (List.range i).filter (fun k => k == i) = [] := by
        rw [List.filter_eq_nil_iff]
        intro k hk
        have := List.mem_range.mp hk
        simp only [beq_iff_eq]
        omega
      rw [hz]
      simp

/-- C10: `diag_matrix diag invert` is an n-by-n matrix whose diagonal entry
`i` is `1/diag(i)` when `invert` is true and `diag(i)` otherwise, with all
off-diagonal entries zero; the division carries no guard (the statements
hold for every `diag`, zero entries included), and `scale_matrix` is
exactly `diag_matrix` with `invert = true`, with no zero-entry check.
C++ `double` division is modelled by `Rat` division, which does not
reproduce the IEEE infinity that `1./0.` produces in the source. -/
theorem spec_c10 (diag : List Rat) (invert : Bool) :
    (diag_matrix diag invert).rows = (diag.length : Int) ∧
    (diag_matrix diag invert).cols = (diag.length : Int) ∧
    (∀ i : Nat, i < diag.length →
      (diag_matrix diag invert).entry (i : Int) (i : Int)
        = (if invert then 1 / diag.getD i 0 else diag.getD i 0)) ∧
    (∀ i j : Int, i ≠ j → (diag_matrix diag invert).entry i j = 0) ∧
    scale_matrix diag = diag_matrix diag true := by
  refine ⟨rfl, rfl, ?_, ?_, rfl⟩
  · intro i hi
    simp only [diag_matrix, setFromTriplets, List.filter_map]
    have hq : ∀ k ∈ List.range diag.length,
        ((fun (p : Int × Int × Rat) => p.1 == (i : Int) && p.2.1 == (i : Int)) ∘
          (fun (k : Nat) =>
            ((k : Int), (k : Int), if invert then 1 / diag.getD k 0 else diag.getD k 0))) k
          = (k == i) := by
      intro k _
      simp only [Function.comp, Bool.and_self]
      rcases eq_or_ne k i with rfl | hk
      · simp
      · have hki : (k : Int) ≠ (i : Int) := by omega
        simp [hk, hki]
    rw [List.filter_congr hq, filter_range_beq_single i diag.length hi]
    simp
  · intro i j hij
    simp only [diag_matrix, setFromTriplets, List.filter_map]
    have hfil : (List.range diag.length).filter
        ((fun (p : Int × Int × Rat) => p.1 == i && p.2.1 == j) ∘
          (fun (k : Nat) =>
            ((k : Int), (k : Int), if invert then 1 / diag.getD k 0 else diag.getD k 0)))
          = [] := by
      rw [List.filter_eq_nil_iff]
      intro k _
      simp only [Function.comp]
      intro hcontra
      rw [Bool.and_eq_true] at hcontra
      have h1 : (k : Int) = i := eq_of_beq hcontra.1
      have h2 : (k : Int) = j := eq_of_beq hcontra.2
      exact hij (by omega)
    rw [hfil]
    rfl

end Spsparse
